import Mathlib

/-!
# Verification of the clause-mining engine of RijkswaterstaatDataQualityRuleMiner

This file gives a shallow embedding, in Lean 4, of the core data model and the
support/confidence engine of the repository (files `structures.py`,
`metrics.py`, `utils.py`, `sequential.py`, `mkgfd/sequential.py`), together
with theorems settling the specification claims about them.

Embedding conventions:
* Graph resources (entities, literals), predicates and types are modeled as
  natural numbers.  Python `is` comparisons between interned type objects are
  modeled as equality of these identifiers; the one claim where object
  identity versus value equality matters (`TypeVariable.__eq__`) gets a
  dedicated model carrying an explicit object id.
* Python `dict`s that are only read through guarded lookups are modeled as
  total functions (a missing key behaves as the empty set); the claim about
  missing-key behaviour models the dict faithfully as a `Nat → Option _`
  map built by the literal translation of `generate_predicate_map`, where a
  `KeyError` is `none`.
* Python `set`s are `Finset ℕ`; the sets of assertions stored in the
  `connections` dict of a clause body are iterated over by the evaluation
  loops, so they are modeled as `List`s recording insertion order (the
  assertions' unique uuids make all inserted elements distinct).
* The recursion of `support_of` over the pattern graph is modeled with an
  explicit recursion-depth argument `fuel`; the Python function computes, for
  every input on which it terminates, the value obtained here for every
  sufficiently large `fuel`, and theorems quantify over all `fuel`.
-/

/-- A right-hand side (or left-hand side) resource of an assertion: a bound
entity or literal, an `ObjectTypeVariable`, or a `DataTypeVariable`
(`structures.py`, classes `TypeVariable`, `ObjectTypeVariable`,
`DataTypeVariable`). -/
inductive Rhs where
  | res  (r : ℕ)
  | ovar (t : ℕ)
  | dvar (t : ℕ)
deriving DecidableEq, Repr

/-- The `.type` attribute read by `metrics.py` on a variable right-hand side.
On a bound resource the Python attribute access would fail (it is never
reached by the mining flow); the value returned there is irrelevant to all
theorems below. -/
def Rhs.vtype : Rhs → ℕ
  | .res r => r
  | .ovar t => t
  | .dvar t => t

/-- An assertion `(lhs, predicate, rhs)` together with its unique
instantiation uuid; the `isIdentity` flag models membership in the
`IdentityAssertion` subclass (`structures.py`, classes `Assertion`,
`IdentityAssertion`).  Dict and set membership of assertions in Python is
governed by their unique-per-instantiation hash, which the derived equality
(including `uuid`) models. -/
structure Assertion where
  isIdentity : Bool
  lhs : Rhs
  predicate : ℕ
  rhs : Rhs
  uuid : ℕ
deriving DecidableEq, Repr

/-- `Assertion.copy` (`structures.py` lines 283-288): builds a plain
`Assertion` with the same lhs, predicate and rhs; the construction draws a
fresh uuid (`fresh_uuid` models the `uuid4()` draw), which is overwritten
with the original uuid when `reset_uuid` is false. -/
def Assertion.copy (a : Assertion) (reset_uuid : Bool) (fresh_uuid : ℕ) : Assertion :=
  { isIdentity := false, lhs := a.lhs, predicate := a.predicate, rhs := a.rhs,
    uuid := if reset_uuid then fresh_uuid else a.uuid }

/-- `IdentityAssertion.copy` (`structures.py` lines 307-310): constructs the
copy, optionally restores its uuid, and then falls off the end of the
function body — Python therefore returns `None`, modeled as `none`. -/
def IdentityAssertion.copy (a : Assertion) (reset_uuid : Bool) (fresh_uuid : ℕ) :
    Option Assertion :=
  let _copy : Assertion :=
    { isIdentity := true, lhs := a.lhs, predicate := a.predicate, rhs := a.rhs,
      uuid := if reset_uuid then fresh_uuid else a.uuid }
  none

/-- The per-predicate entry `predicate_map[p]` of the Cache: the `forwards`
and `backwards` adjacency dicts and the key set of `forwards` (read as
`predicate_map[p]['forwards'].keys()` by `metrics.py` line 101). -/
structure PredMaps where
  forwards : ℕ → Finset ℕ
  forwardsKeys : Finset ℕ
  backwards : ℕ → Finset ℕ

/-- The derived-index Cache (`cache.py`): the predicate adjacency maps, the
object-to-type map and the literal-to-datatype map, in their totalized view
(lookups that the evaluation engine performs on them are modeled as total;
the missing-key behaviour of the underlying dicts is modeled separately). -/
structure Cache where
  predicate_map : ℕ → PredMaps
  object_type_map : ℕ → ℕ
  data_type_map : ℕ → ℕ

/-- Resources adjacent to `ent` through `p` whose object type is `t`
(the inner loop `for resource in predicate_map[...]['forwards'][entity]` with
the check `object_type_map['object-to-type'][resource] is ...type`). -/
def matchingObjects (c : Cache) (p t ent : ℕ) : Finset ℕ :=
  ((c.predicate_map p).forwards ent).filter (fun r => c.object_type_map r = t)

/-- Resources adjacent to `ent` through `p` whose data type is `t`. -/
def matchingData (c : Cache) (p t ent : ℕ) : Finset ℕ :=
  ((c.predicate_map p).forwards ent).filter (fun r => c.data_type_map r = t)

/-- `confidence_of` (`metrics.py` lines 6-39).  Dispatch on the kind of the
head's right-hand side; for a bound resource the count is incremented once
per entity, while for type variables it is incremented once per matching
`(entity, resource)` pair — the loops carry no `break`. -/
def confidence_of (c : Cache) (assertion : Assertion) (assertion_domain : Finset ℕ) :
    ℕ × Finset ℕ :=
  match assertion.rhs with
  | .res r =>
      let upd := assertion_domain.filter
        (fun ent => r ∈ (c.predicate_map assertion.predicate).forwards ent)
      (upd.card, upd)
  | .ovar t =>
      (assertion_domain.sum (fun ent => (matchingObjects c assertion.predicate t ent).card),
       assertion_domain.filter (fun ent => (matchingObjects c assertion.predicate t ent).card ≠ 0))
  | .dvar t =>
      (assertion_domain.sum (fun ent => (matchingData c assertion.predicate t ent).card),
       assertion_domain.filter (fun ent => (matchingData c assertion.predicate t ent).card ≠ 0))

/-- The direct evaluation of a pattern-leaf assertion that is not the
identity (`support_of`, `metrics.py` lines 60-84): identical per-kind
dispatch to `confidence_of`, returning the support count and the satisfying
subset of the domain. -/
def supportLeaf (c : Cache) (a : Assertion) (dom : Finset ℕ) : ℤ × Finset ℕ :=
  match a.rhs with
  | .res r =>
      let upd := dom.filter (fun ent => r ∈ (c.predicate_map a.predicate).forwards ent)
      ((upd.card : ℤ), upd)
  | .ovar t =>
      (((dom.sum (fun ent => (matchingObjects c a.predicate t ent).card) : ℕ) : ℤ),
       dom.filter (fun ent => (matchingObjects c a.predicate t ent).card ≠ 0))
  | .dvar t =>
      (((dom.sum (fun ent => (matchingData c a.predicate t ent).card) : ℕ) : ℤ),
       dom.filter (fun ent => (matchingData c a.predicate t ent).card ≠ 0))

/-- The range of an assertion given its domain (`metrics.py` lines 86-94):
the identity assertion's range is the domain itself; otherwise the forward
images restricted to objects of the right-hand side's type. -/
def rangeOf (c : Cache) (a : Assertion) (dom : Finset ℕ) : Finset ℕ :=
  if a.isIdentity then dom
  else dom.biUnion (fun ent =>
    ((c.predicate_map a.predicate).forwards ent).filter
      (fun r => c.object_type_map r = a.rhs.vtype))

/-- The backward translation of the surviving range to the domain side
(`metrics.py` lines 126-134): the support adds the size of each backward
image (counting an entity once per surviving resource it reaches) and the
updated domain is their union. -/
def domainOf (c : Cache) (a : Assertion) (range : Finset ℕ) : ℤ × Finset ℕ :=
  (((range.sum (fun r => ((c.predicate_map a.predicate).backwards r).card) : ℕ) : ℤ),
   range.biUnion (fun r => (c.predicate_map a.predicate).backwards r))

/-- The pre-filtering loop of `support_of` (`metrics.py` lines 97-101):
for each connected assertion, first test whether the surviving range has
dropped below `min_support` (in which case the sentinel is signalled,
modeled as `none`), then intersect the range with the key set of the
connection's forward map. -/
def rangeFilterLoop (c : Cache) (min_support : ℕ) :
    List Assertion → Finset ℕ → Option (Finset ℕ)
  | [], range => some range
  | conn :: rest, range =>
      if range.card < min_support then none
      else rangeFilterLoop c min_support rest
        (range ∩ (c.predicate_map conn.predicate).forwardsKeys)

/-- The recursive-update loop of `support_of` (`metrics.py` lines 105-120):
for each connected assertion, test the threshold on the current range,
recursively evaluate the connection on it (the Python name
`connection_domain` aliases the shrinking `assertion_range` set), test the
returned support against the threshold, and intersect the range with the
returned updated domain.  The recursive evaluation is passed in as `recur`. -/
def rangeUpdateLoop (recur : Assertion → Finset ℕ → ℤ × Finset ℕ) (min_support : ℕ) :
    List Assertion → Finset ℕ → Option (Finset ℕ)
  | [], range => some range
  | conn :: rest, range =>
      if range.card < min_support then none
      else
        if (recur conn range).1 < (min_support : ℤ) then none
        else rangeUpdateLoop recur min_support rest (range ∩ (recur conn range).2)

/-- `support_of` (`metrics.py` lines 41-134).  `connections` is the
`graph_pattern.connections` dict of the clause body; `fuel` bounds the
recursion depth (the Python value is obtained for every sufficiently large
`fuel`).  A leaf (no outgoing connections) is evaluated directly; an
internal assertion computes its range, pre-filters it, recursively
evaluates each connection while intersecting, and translates back to the
domain side; `(-1, ∅)` is the threshold-miss sentinel. -/
def support_of (c : Cache) (connections : Assertion → List Assertion) (min_support : ℕ) :
    ℕ → Assertion → Finset ℕ → ℤ × Finset ℕ
  | 0, _, _ => (-1, ∅)
  | fuel+1, a, dom =>
      if connections a = [] then
        if a.isIdentity then ((dom.card : ℤ), dom)
        else supportLeaf c a dom
      else
        match rangeFilterLoop c min_support (connections a) (rangeOf c a dom) with
        | none => (-1, ∅)
        | some range1 =>
            match rangeUpdateLoop (fun conn d => support_of c connections min_support fuel conn d)
                min_support (connections a) range1 with
            | none => (-1, ∅)
            | some range2 =>
                if a.isIdentity then ((range2.card : ℤ), range2)
                else domainOf c a range2

/-- The body of a clause (`structures.py`, class `ClauseBody`): the rooted
pattern graph.  `connections` is the adjacency dict (each key's Python set
of extensions is modeled as the list of insertions, all distinct thanks to
the unique uuids), `keys` its key set, `distances` the depth partition, and
`distances_reverse` the assertion-to-depth dict (total here; it is only
meaningful on `keys`). -/
structure ClauseBody where
  identity : Assertion
  keys : Finset Assertion
  connections : Assertion → List Assertion
  distances : ℕ → Finset Assertion
  distances_reverse : Assertion → ℕ

/-- A freshly constructed `ClauseBody(identity=...)` (`structures.py` lines
332-336): the identity is the only key, has no connections, and sits at
distance 0. -/
def ClauseBody.fresh (idA : Assertion) : ClauseBody :=
  { identity := idA
    keys := {idA}
    connections := fun _ => []
    distances := fun n => if n = 0 then {idA} else ∅
    distances_reverse := fun _ => 0 }

/-- `ClauseBody.extend` (`structures.py` lines 343-355): add `extension` to
the connection set of `endpoint`, give `extension` an empty connection set,
and record its distance as the endpoint's distance plus one, both in the
reverse map and in the depth partition. -/
def ClauseBody.extend (b : ClauseBody) (endpoint extension : Assertion) : ClauseBody :=
  let distance := b.distances_reverse endpoint + 1
  { identity := b.identity
    keys := insert extension b.keys
    connections := fun a =>
      if a = extension then []
      else if a = endpoint then b.connections endpoint ++ [extension]
      else b.connections a
    distances := fun n =>
      if n = distance then insert extension (b.distances n) else b.distances n
    distances_reverse := Function.update b.distances_reverse extension distance }

/-- The clause bodies that the mining algorithm can actually build: a fresh
body around an `IdentityAssertion`, extended any number of times at an
existing endpoint by a fresh assertion (`extend` is always called with
`candidate_extension.copy()`, whose fresh uuid makes it distinct from every
assertion already in the body). -/
inductive ClauseBody.Reachable : ClauseBody → Prop
  | base (idA : Assertion) (hid : idA.isIdentity = true) :
      ClauseBody.Reachable (ClauseBody.fresh idA)
  | step (b : ClauseBody) (endpoint extension : Assertion) :
      ClauseBody.Reachable b → endpoint ∈ b.keys → extension ∉ b.keys →
      ClauseBody.Reachable (b.extend endpoint extension)

/-- A candidate rule (`structures.py`, class `Clause`).  `parent` and
`children` are modeled as ids into an arena of clauses; the transient
working sets `_satisfy_body` / `_satisfy_full` are `Finset ℕ`. -/
structure Clause where
  head : Assertion
  body : ClauseBody
  domain_probability : ℚ
  range_probability : ℚ
  support : ℕ
  confidence : ℕ
  parent : Option ℕ
  children : List ℕ
  satisfyBody : Finset ℕ
  satisfyFull : Finset ℕ
  pruneFlag : Bool

/-- `Clause.__init__` (`structures.py` lines 35-47): assigns `head`, `body`,
`domain_probability`, `range_probability`, `confidence`, `parent`, fresh
`children` and transient sets — but never assigns `self.support`, so the
class-level default `support = 0` remains, whatever the `support` argument
was. -/
def Clause.init (head : Assertion) (body : ClauseBody)
    (domain_probability : ℚ) (range_probability : ℚ)
    (confidence : ℕ) (support : ℕ) (parent : Option ℕ) : Clause :=
  { head := head
    body := body
    domain_probability := domain_probability
    range_probability := range_probability
    confidence := confidence
    support := 0
    parent := parent
    children := []
    satisfyBody := ∅
    satisfyFull := ∅
    pruneFlag := false }

/-- `new_variable_clause` (`mkgfd/sequential.py` lines 536-553): builds the
depth-0 clause with a type- or data-variable head.  Note that it assigns the
full instance set of the type to `_satisfy_full` (so `confidence` counts all
members) and the set of members carrying the matching predicate-object pair
to `_satisfy_body` (so `support` counts only those) — the reverse of the
documented meaning of the two statistics.  The clause is dropped when its
confidence misses `min_confidence`, else returned (and then added to the
depth-0 generation tree by the caller).  Rational division models Python's
float division. -/
def new_variable_clause (parent : Option ℕ) (var : Rhs) (p : ℕ) (o : Rhs)
    (class_instance_map : Finset ℕ) (types_map : Finset ℕ) (pfreq : ℕ)
    (min_confidence : ℕ) (identityUuid headUuid : ℕ) : Option Clause :=
  let phi := Clause.init ⟨false, var, p, o, headUuid⟩
    (ClauseBody.fresh ⟨true, var, 0, var, identityUuid⟩) 0 0 0 0 parent
  let satisfy_full := class_instance_map
  let confidence := satisfy_full.card
  if confidence < min_confidence then none
  else
    let satisfy_body := types_map
    let supp := satisfy_body.card
    some { phi with
      satisfyFull := satisfy_full
      satisfyBody := satisfy_body
      support := supp
      confidence := confidence
      domain_probability := (confidence : ℚ) / (supp : ℚ)
      range_probability := (confidence : ℚ) / (pfreq : ℚ) }

/-- The sequence of operations that `generate` (`sequential.py` lines
32-116) performs on the generation forest, at the granularity of one event
per per-type loop body: `expand t d` is the loop over all clauses of type
`t` at depth `d` (lines 39-78, including the recursive `explore` calls that
create — but do not attach — derivative clauses), `pruneEv`/`clearEv` are
the in-loop prune and clear calls (lines 81, 100), and `attach t (d+1)` is
the `update_tree(ctype, derivatives, depth+1)` call (line 104) that makes
the derivatives exist in the forest. -/
inductive GenEvent where
  | expand  (ctype depth : ℕ)
  | pruneEv (ctype depth : ℕ)
  | clearEv (ctype depth : ℕ)
  | attach  (ctype depth : ℕ)
deriving DecidableEq, Repr

/-- The events of one iteration of the inner `for ctype in ...` loop of
`generate` at a given depth. -/
def typeBlock (pruneFlag : Bool) (dstart dstop : ℕ) (depth t : ℕ) : List GenEvent :=
  GenEvent.expand t depth ::
    ((if pruneFlag then [GenEvent.pruneEv t depth] else []) ++
     (if 0 < depth ∧ ¬(dstart ≤ depth ∧ depth < dstop) then [GenEvent.clearEv t depth]
      else []) ++
     [GenEvent.attach t (depth + 1)])

/-- The full schedule of forest operations performed by one run of
`generate`: the double loop over `depth in range(0, depths.stop)` and
`ctype in generation_forest.types()`, followed by the mode-skip pruning at
depth 0 (lines 106-109) and the depth-0 clearing when `0 not in depths`
(lines 111-116).  `depths` is the Python range `[dstart, dstop)`. -/
def generateSchedule (types : List ℕ) (dstart dstop : ℕ) (pruneFlag : Bool)
    (modeSkipTypes : List ℕ) : List GenEvent :=
  ((List.range dstop).flatMap (fun depth =>
      types.flatMap (fun t => typeBlock pruneFlag dstart dstop depth t)))
    ++ modeSkipTypes.map (fun t => GenEvent.pruneEv t 0)
    ++ (if ¬(dstart ≤ 0 ∧ 0 < dstop) then types.map (fun t => GenEvent.clearEv t 0) else [])

/-- The depth-barrier property claimed of `generate`: no clause at depth
`d+1` is attached to the forest before every type's depth-`d` expansion has
finished. -/
def DepthBarrier (evs : List GenEvent) : Prop :=
  ∀ i j t t' d, evs.get? i = some (GenEvent.attach t (d + 1)) →
    evs.get? j = some (GenEvent.expand t' d) → j < i

/-- The outer-loop phase in which an expansion or attachment event occurs
(`attach t (d+1)` is issued by the depth-`d` iteration); prune/clear events
carry no phase. -/
def GenEvent.phase : GenEvent → Option ℕ
  | .expand _ d => some d
  | .attach _ d => some (d - 1)
  | .pruneEv _ _ => none
  | .clearEv _ _ => none

/-- Phase-ordering between two schedule events: whenever both carry a
phase, the earlier event's phase is at most the later one's. -/
def PhaseLe (a b : GenEvent) : Prop :=
  ∀ pa pb, a.phase = some pa → b.phase = some pb → pa ≤ pb

/-- A Python object of class `URIRef` (rdflib): a string value together
with an object id distinguishing separately allocated instances; `t1 == t2`
compares values, `t1 is t2` compares object ids. -/
structure PyURIRef where
  oid : ℕ
  value : String
deriving DecidableEq, Repr

/-- The two concrete classes of `TypeVariable` (`structures.py`). -/
inductive VarKind where
  | objectType
  | dataType
deriving DecidableEq, Repr

/-- A `TypeVariable` instance: its class together with its bound `type`
object. -/
structure TypeVariablePy where
  kind : VarKind
  type : PyURIRef
deriving DecidableEq, Repr

/-- `TypeVariable.__eq__` (`structures.py` lines 77-79):
`type(self) is type(other) and self.type is other.type` — exact class match
plus object identity (not value equality) of the bound type objects. -/
def TypeVariable.eq (v w : TypeVariablePy) : Bool :=
  v.kind = w.kind ∧ v.type.oid = w.type.oid

/-- A per-predicate entry of the predicate map as the plain Python dicts
built by `generate_predicate_map`: partial maps where a missing key is
`none` (subscripting it raises `KeyError`). -/
structure PredDicts where
  forwards : ℕ → Option (Finset ℕ)
  backwards : ℕ → Option (Finset ℕ)

/-- One iteration of the triple loop of `generate_predicate_map`
(`utils.py` lines 24-39): skip triples whose predicate is filtered out,
create the per-predicate entry on first sight, and insert `rhs` into
`forwards[lhs]` and `lhs` into `backwards[rhs]`, creating the singleton on
first sight of the key. -/
def predicateMapStep (predicates : Finset ℕ) (pm : ℕ → Option PredDicts)
    (triple : ℕ × ℕ × ℕ) : ℕ → Option PredDicts :=
  let lhs := triple.1
  let predicate := triple.2.1
  let rhs := triple.2.2
  if predicate ∉ predicates then pm
  else
    let entry := (pm predicate).getD ⟨fun _ => none, fun _ => none⟩
    let entry' : PredDicts :=
      { forwards := Function.update entry.forwards lhs
          (some (insert rhs ((entry.forwards lhs).getD ∅)))
        backwards := Function.update entry.backwards rhs
          (some (insert lhs ((entry.backwards rhs).getD ∅))) }
    Function.update pm predicate (some entry')

/-- `generate_predicate_map` (`utils.py` lines 22-41): fold the triple loop
over the graph, starting from the empty dict. -/
def generate_predicate_map (g : List (ℕ × ℕ × ℕ)) (predicates : Finset ℕ) :
    ℕ → Option PredDicts :=
  g.foldl (predicateMapStep predicates) (fun _ => none)

/-- Inverse-consistency of one per-predicate dict entry: any entity stored
in a backwards set has the corresponding resource stored in its forwards
set. -/
def PredDicts.Inverts (en : PredDicts) : Prop :=
  ∀ (ent r : ℕ) (s : Finset ℕ), en.backwards r = some s → ent ∈ s →
    ∃ s', en.forwards ent = some s' ∧ r ∈ s'

/-- The lookup `predicate_map[p]['forwards'][e]` as performed by
`support_of` and `confidence_of` on the plain dicts: a missing key at
either level raises `KeyError`, modeled as `none`. -/
def lookup_forwards (pm : ℕ → Option PredDicts) (p e : ℕ) : Option (Finset ℕ) :=
  (pm p).bind (fun entry => entry.forwards e)

/-- The bound-resource leaf loop of `support_of` (`metrics.py` lines
62-68) run over the plain dicts, with the `KeyError` of a missing
`forwards[entity]` lookup propagated: iterate the domain, count the
entities whose forward image contains the bound resource, and abort
fatally (`none`) as soon as a lookup misses. -/
def supportLeafChecked (pm : ℕ → Option PredDicts) (p : ℕ) (r : ℕ) :
    List ℕ → ℕ × Finset ℕ → Option (ℕ × Finset ℕ)
  | [], acc => some acc
  | ent :: rest, acc =>
      match lookup_forwards pm p ent with
      | none => none
      | some image =>
          if r ∈ image then supportLeafChecked pm p r rest (acc.1 + 1, insert ent acc.2)
          else supportLeafChecked pm p r rest acc

/-- A cache in which predicate 0 links entity 1 forward to the two
resources 2 and 3, both of object type 5 (used to exercise the
per-pair counting of the type-variable branches). -/
def pairCache : Cache :=
  { predicate_map := fun _ => ⟨fun _ => {2, 3}, {1}, fun _ => ∅⟩
    object_type_map := fun _ => 5
    data_type_map := fun _ => 0 }

/-- A head assertion with an `ObjectTypeVariable` right-hand side of type 5. -/
def ovarHead : Assertion := ⟨false, .ovar 5, 0, .ovar 5, 0⟩

/-- The refinement relation between the evaluation of an extended body and
the evaluation of the original body on a larger domain `dom ⊇ dom'`, where
`dom'` is the input domain of the extended-body evaluation: a sentinel on
the original side forces a sentinel on the extended side, the extended
support cannot pass a threshold the original support missed, and the
extended updated domain, within `dom'`, refines the original one. -/
def SRel (min_support : ℕ) (dom' : Finset ℕ) (p' p : ℤ × Finset ℕ) : Prop :=
  (p.1 = -1 → p' = (-1, ∅)) ∧
    (p.1 < (min_support : ℤ) → p'.1 < (min_support : ℤ)) ∧
    p'.2 ∩ dom' ⊆ p.2

/-- Relation between the results of the range loops run on the extended body
(left) and the original body (right): the left run either also signals the
sentinel, or both runs survive and the left surviving range refines the
right one. -/
def OptRel (o' o : Option (Finset ℕ)) : Prop :=
  o' = none ∨ ∃ r' r, o' = some r' ∧ o = some r ∧ r' ⊆ r

/-- The invariant package maintained by `ClauseBody.extend` along any
reachable construction: every recorded connection goes one depth deeper
than its endpoint, the depth partition agrees with the reverse map, and
assertions outside the key set have no connection entry. -/
def ClauseBody.WFinv (b : ClauseBody) : Prop :=
  (∀ a ∈ b.keys, ∀ ext ∈ b.connections a,
      ext ∈ b.keys ∧ b.distances_reverse ext = b.distances_reverse a + 1) ∧
    (∀ a n, a ∈ b.distances n ↔ a ∈ b.keys ∧ b.distances_reverse a = n) ∧
    (∀ a, a ∉ b.keys → b.connections a = [])

/-- A cache with a single forward edge `1 -[0]-> 2` whose backward map is
its exact inverse; resource 2 has object type 5. -/
def leafCache : Cache :=
  { predicate_map := fun p =>
      if p = 0 then
        { forwards := fun ent => if ent = 1 then {2} else ∅
          forwardsKeys := {1}
          backwards := fun r => if r = 2 then {1} else ∅ }
      else ⟨fun _ => ∅, ∅, fun _ => ∅⟩
    object_type_map := fun r => if r = 2 then 5 else 99
    data_type_map := fun _ => 99 }

/-- A cache with no edges at all (trivially consistent). -/
def emptyCache : Cache :=
  { predicate_map := fun _ => ⟨fun _ => ∅, ∅, fun _ => ∅⟩
    object_type_map := fun _ => 0
    data_type_map := fun _ => 0 }

/-- The identity assertion of the concrete test bodies. -/
def idAssertion : Assertion := ⟨true, .ovar 9, 100, .ovar 9, 0⟩

/-- A bound-object assertion `(var, 0, 2)` used as a concrete extension. -/
def boundLeaf : Assertion := ⟨false, .ovar 9, 0, .res 2, 1⟩

/-- A second fresh assertion used as a concrete extension. -/
def boundLeaf2 : Assertion := ⟨false, .ovar 9, 0, .res 2, 2⟩

/-- The concrete two-assertion body `identity -> boundLeaf`. -/
def leafBody : ClauseBody := (ClauseBody.fresh idAssertion).extend idAssertion boundLeaf

/-- C9.  The `Clause` constructor ignores its `support` argument: whatever
value is passed, the constructed clause's `support` attribute is the class
default `0` (the `__init__` body never assigns `self.support`). -/
theorem clause_init_ignores_support_argument
    (head : Assertion) (body : ClauseBody) (dp rp : ℚ) (conf supp : ℕ)
    (parent : Option ℕ) :
    (Clause.init head body dp rp conf supp parent).support = 0 := rfl

/-- C10.  `IdentityAssertion.copy` returns `None` for every identity
assertion (the constructed copy is never returned), while `Assertion.copy`
always returns a new assertion with the same lhs, predicate and rhs. -/
theorem identityAssertion_copy_none_assertion_copy_same_fields
    (a : Assertion) (reset_uuid : Bool) (fresh_uuid : ℕ) :
    IdentityAssertion.copy a reset_uuid fresh_uuid = none ∧
      (Assertion.copy a reset_uuid fresh_uuid).lhs = a.lhs ∧
      (Assertion.copy a reset_uuid fresh_uuid).predicate = a.predicate ∧
      (Assertion.copy a reset_uuid fresh_uuid).rhs = a.rhs :=
  ⟨rfl, rfl, rfl, rfl⟩

/-- C2.  Evaluation of the claimed bound `confidence_of(head, domain) ≤
len(domain)` at a failing input: with an `ObjectTypeVariable` head and a
single-entity domain whose entity reaches two resources of the matching
type, `confidence_of` returns confidence 2 on a domain of size 1 — the
type-variable branches count once per matching (entity, resource) pair,
not once per member. -/
theorem confidence_of_exceeds_domain_size :
    (confidence_of pairCache ovarHead {1}).1 = 2 ∧
      ({1} : Finset ℕ).card = 1 ∧ ¬((2 : ℕ) ≤ 1) := by decide

/-- C3.  Evaluation of `new_variable_clause` at a failing input: for a type
with three members of which only two carry the predicate-object pair (and
`pfreq = 2`), the retained depth-0 clause has `domain_probability =
range_probability = 3/2 > 1`; the function assigns the full member set to
`_satisfy_full` (confidence 3) and the matching subset to `_satisfy_body`
(support 2), the reverse of the documented statistics. -/
theorem new_variable_clause_probability_above_one :
    ((new_variable_clause none (.ovar 7) 0 (.ovar 5) {1, 2, 3} {1, 2} 2 0 10 11).map
        Clause.domain_probability = some (3 / 2 : ℚ)) ∧
      ((new_variable_clause none (.ovar 7) 0 (.ovar 5) {1, 2, 3} {1, 2} 2 0 10 11).map
        Clause.range_probability = some (3 / 2 : ℚ)) ∧
      ¬((3 / 2 : ℚ) ≤ 1) := by
  have hfull : ({1, 2, 3} : Finset ℕ).card = 3 := rfl
  have hbody : ({1, 2} : Finset ℕ).card = 2 := rfl
  refine ⟨?_, ?_, by norm_num⟩ <;>
    simp [new_variable_clause, Clause.init, hfull, hbody]

/-- C8 counterexample.  Two `ObjectTypeVariable`s bound to type objects
that are equal as values but separately allocated compare unequal:
`TypeVariable.__eq__` demands `self.type is other.type` (object identity),
not value equality. -/
theorem typeVariable_eq_fails_on_equal_values :
    TypeVariable.eq ⟨.objectType, ⟨0, "T"⟩⟩ ⟨.objectType, ⟨1, "T"⟩⟩ = false ∧
      (⟨0, "T"⟩ : PyURIRef).value = (⟨1, "T"⟩ : PyURIRef).value := by decide

/-- C8 amended.  Type variables compare equal exactly when they are of the
same concrete class and their bound type objects are the identical object
(same object id) — value equality of distinct type objects does not
suffice. -/
theorem typeVariable_eq_iff_same_kind_and_identical_type (v w : TypeVariablePy) :
    TypeVariable.eq v w = true ↔ v.kind = w.kind ∧ v.type.oid = w.type.oid := by
  simp [TypeVariable.eq]

/-- The support returned by a direct leaf evaluation is nonnegative. -/
theorem supportLeaf_fst_nonneg (c : Cache) (a : Assertion) (dom : Finset ℕ) :
    0 ≤ (supportLeaf c a dom).1 := by
  obtain ⟨i, l, p, r, u⟩ := a
  cases r <;> simp [supportLeaf] <;> positivity

/-- The support returned by a direct leaf evaluation shrinks with the
domain. -/
theorem supportLeaf_fst_le (c : Cache) (a : Assertion) {dom' dom : Finset ℕ}
    (h : dom' ⊆ dom) : (supportLeaf c a dom').1 ≤ (supportLeaf c a dom).1 := by
  obtain ⟨i, l, p, r, u⟩ := a
  cases r <;> simp only [supportLeaf, Nat.cast_le]
  · exact Finset.card_le_card (Finset.filter_subset_filter _ h)
  · exact Finset.sum_le_sum_of_subset h
  · exact Finset.sum_le_sum_of_subset h

/-- The updated domain returned by a direct leaf evaluation shrinks with the
domain. -/
theorem supportLeaf_snd_subset (c : Cache) (a : Assertion) {dom' dom : Finset ℕ}
    (h : dom' ⊆ dom) : (supportLeaf c a dom').2 ⊆ (supportLeaf c a dom).2 := by
  obtain ⟨i, l, p, r, u⟩ := a
  cases r <;> simp only [supportLeaf] <;> exact Finset.filter_subset_filter _ h

/-- The support returned by the backward translation is nonnegative. -/
theorem domainOf_fst_nonneg (c : Cache) (a : Assertion) (range : Finset ℕ) :
    0 ≤ (domainOf c a range).1 :=
  Int.natCast_nonneg _

/-- The support returned by the backward translation shrinks with the
range. -/
theorem domainOf_fst_le (c : Cache) (a : Assertion) {r' r : Finset ℕ} (h : r' ⊆ r) :
    (domainOf c a r').1 ≤ (domainOf c a r).1 := by
  simp only [domainOf, Nat.cast_le]
  exact Finset.sum_le_sum_of_subset h

/-- The updated domain returned by the backward translation shrinks with
the range. -/
theorem domainOf_snd_subset (c : Cache) (a : Assertion) {r' r : Finset ℕ} (h : r' ⊆ r) :
    (domainOf c a r').2 ⊆ (domainOf c a r).2 :=
  Finset.biUnion_subset_biUnion_of_subset_left _ h

/-- The range of an assertion shrinks with its domain. -/
theorem rangeOf_mono (c : Cache) (a : Assertion) {dom' dom : Finset ℕ} (h : dom' ⊆ dom) :
    rangeOf c a dom' ⊆ rangeOf c a dom := by
  unfold rangeOf
  split
  · exact h
  · exact Finset.biUnion_subset_biUnion_of_subset_left _ h

/-- Every member of the range of a non-identity assertion has the object
type demanded by the assertion's right-hand side. -/
theorem rangeOf_mem_vtype (c : Cache) (a : Assertion) {dom : Finset ℕ} {r : ℕ}
    (hid : a.isIdentity = false) (hr : r ∈ rangeOf c a dom) :
    c.object_type_map r = a.rhs.vtype := by
  simp only [rangeOf, hid, Bool.false_eq_true, if_false, Finset.mem_biUnion,
    Finset.mem_filter] at hr
  obtain ⟨ent, _, _, ht⟩ := hr
  exact ht

/-- The range of a non-identity assertion with an object-type-variable
right-hand side has at most as many members as the direct leaf support of
that assertion on any larger domain (each range member is reached from at
least one domain member). -/
theorem card_rangeOf_le_supportLeaf (c : Cache) (a : Assertion) {t : ℕ}
    (hid : a.isIdentity = false) (ht : a.rhs = Rhs.ovar t)
    {dom' dom : Finset ℕ} (h : dom' ⊆ dom) :
    ((rangeOf c a dom').card : ℤ) ≤ (supportLeaf c a dom).1 := by
  simp only [rangeOf, hid, Bool.false_eq_true, if_false, supportLeaf, ht, Nat.cast_le]
  calc (dom'.biUnion fun ent =>
          ((c.predicate_map a.predicate).forwards ent).filter
            (fun r => c.object_type_map r = (Rhs.ovar t).vtype)).card
      ≤ dom'.sum (fun ent => (((c.predicate_map a.predicate).forwards ent).filter
            (fun r => c.object_type_map r = (Rhs.ovar t).vtype)).card) :=
        Finset.card_biUnion_le
    _ ≤ dom.sum (fun ent => (matchingObjects c a.predicate t ent).card) := by
        exact Finset.sum_le_sum_of_subset h

/-- A surviving pre-filter range is a subset of the input range. -/
theorem rangeFilterLoop_some_subset (c : Cache) (ms : ℕ) :
    ∀ (cs : List Assertion) {range r : Finset ℕ},
      rangeFilterLoop c ms cs range = some r → r ⊆ range := by
  intro cs
  induction cs with
  | nil =>
      intro range r h
      rw [rangeFilterLoop] at h
      cases h
      exact Finset.Subset.refl _
  | cons conn rest ih =>
      intro range r h
      rw [rangeFilterLoop] at h
      split at h
      · cases h
      · exact (ih h).trans Finset.inter_subset_left

/-- A surviving recursive-update range is a subset of the input range. -/
theorem rangeUpdateLoop_some_subset (recur : Assertion → Finset ℕ → ℤ × Finset ℕ) (ms : ℕ) :
    ∀ (cs : List Assertion) {range r : Finset ℕ},
      rangeUpdateLoop recur ms cs range = some r → r ⊆ range := by
  intro cs
  induction cs with
  | nil =>
      intro range r h
      rw [rangeUpdateLoop] at h
      cases h
      exact Finset.Subset.refl _
  | cons conn rest ih =>
      intro range r h
      rw [rangeUpdateLoop] at h
      split at h
      · cases h
      · split at h
        · cases h
        · exact (ih h).trans Finset.inter_subset_left

/-- If the pre-filter loop survives a nonempty connection list, its input
range was at least `min_support` large. -/
theorem rangeFilterLoop_cons_not_lt (c : Cache) (ms : ℕ) {conn : Assertion}
    {rest : List Assertion} {range r : Finset ℕ}
    (h : rangeFilterLoop c ms (conn :: rest) range = some r) : ¬(range.card < ms) := by
  rw [rangeFilterLoop] at h
  split at h
  · cases h
  · assumption

/-- `SRel` holds whenever the extended-side evaluation signalled the
sentinel. -/
theorem SRel_of_left_sentinel (ms : ℕ) (dom' : Finset ℕ) (p : ℤ × Finset ℕ) :
    SRel ms dom' (-1, ∅) p := by
  refine ⟨fun _ => rfl, fun _ => ?_, by simp⟩
  have := Int.natCast_nonneg ms
  omega

/-- The pre-filter loop on the extended connection list (`ext` appended)
refines the loop on the original list, for any smaller input range. -/
theorem rangeFilterLoop_optRel (c : Cache) (ms : ℕ) (ext : List Assertion) :
    ∀ (cs : List Assertion) {range' range : Finset ℕ}, range' ⊆ range →
      OptRel (rangeFilterLoop c ms (cs ++ ext) range') (rangeFilterLoop c ms cs range) := by
  intro cs
  induction cs with
  | nil =>
      intro range' range h
      rw [List.nil_append]
      cases hE : rangeFilterLoop c ms ext range' with
      | none => exact Or.inl rfl
      | some r' =>
          exact Or.inr ⟨r', range, rfl, by rw [rangeFilterLoop],
            (rangeFilterLoop_some_subset c ms ext hE).trans h⟩
  | cons conn rest ih =>
      intro range' range h
      rw [List.cons_append, rangeFilterLoop, rangeFilterLoop]
      by_cases hlt : range.card < ms
      · have hlt' : range'.card < ms := lt_of_le_of_lt (Finset.card_le_card h) hlt
        rw [if_pos hlt', if_pos hlt]
        exact Or.inl rfl
      · rw [if_neg hlt]
        by_cases hlt' : range'.card < ms
        · rw [if_pos hlt']
          exact Or.inl rfl
        · rw [if_neg hlt']
          exact ih (Finset.inter_subset_inter h (Finset.Subset.refl _))

/-- The recursive-update loop on the extended connection list refines the
loop on the original list, provided the recursive evaluations refine each
other in the sense of `SRel` on every connection of the original list. -/
theorem rangeUpdateLoop_optRel (ms : ℕ)
    (recur' recur : Assertion → Finset ℕ → ℤ × Finset ℕ) (ext : List Assertion) :
    ∀ (cs : List Assertion),
      (∀ conn ∈ cs, ∀ (d' d : Finset ℕ), d' ⊆ d → SRel ms d' (recur' conn d') (recur conn d)) →
      ∀ {range' range : Finset ℕ}, range' ⊆ range →
        OptRel (rangeUpdateLoop recur' ms (cs ++ ext) range')
          (rangeUpdateLoop recur ms cs range) := by
  intro cs
  induction cs with
  | nil =>
      intro _ range' range h
      rw [List.nil_append]
      cases hE : rangeUpdateLoop recur' ms ext range' with
      | none => exact Or.inl rfl
      | some r' =>
          exact Or.inr ⟨r', range, rfl, by rw [rangeUpdateLoop],
            (rangeUpdateLoop_some_subset recur' ms ext hE).trans h⟩
  | cons conn rest ih =>
      intro H range' range h
      have hS := H conn (List.mem_cons_self conn rest) range' range h
      rw [List.cons_append, rangeUpdateLoop, rangeUpdateLoop]
      by_cases hlt : range.card < ms
      · have hlt' : range'.card < ms := lt_of_le_of_lt (Finset.card_le_card h) hlt
        rw [if_pos hlt', if_pos hlt]
        exact Or.inl rfl
      · rw [if_neg hlt]
        by_cases hlt' : range'.card < ms
        · rw [if_pos hlt']
          exact Or.inl rfl
        · rw [if_neg hlt']
          by_cases h1 : (recur conn range).1 < (ms : ℤ)
          · rw [if_pos h1, if_pos (hS.2.1 h1)]
            exact Or.inl rfl
          · rw [if_neg h1]
            by_cases h1' : (recur' conn range').1 < (ms : ℤ)
            · rw [if_pos h1']
              exact Or.inl rfl
            · rw [if_neg h1']
              refine ih (fun conn2 hm => H conn2 (List.mem_cons_of_mem conn hm)) ?_
              intro y hy
              have hy' := Finset.mem_inter.mp hy
              exact Finset.mem_inter.mpr
                ⟨h hy'.1, hS.2.2 (Finset.mem_inter.mpr ⟨hy'.2, hy'.1⟩)⟩

/-- Every value returned by `support_of` has support at least `-1`. -/
theorem support_of_fst_ge (c : Cache) (connections : Assertion → List Assertion)
    (ms fuel : ℕ) (a : Assertion) (dom : Finset ℕ) :
    -1 ≤ (support_of c connections ms fuel a dom).1 := by
  cases fuel with
  | zero => exact le_refl _
  | succ n =>
      rw [support_of]
      split
      · split
        · exact le_trans (by omega) (Int.natCast_nonneg _)
        · exact le_trans (by omega) (supportLeaf_fst_nonneg c a dom)
      · split
        · exact le_refl _
        · split
          · exact le_refl _
          · split
            · exact le_trans (by omega) (Int.natCast_nonneg _)
            · exact le_trans (by omega) (domainOf_fst_nonneg c a _)

/-- The result of `support_of` rooted at an identity assertion is either
the sentinel or a pair `(|U|, U)` with `U` a subset of the input domain. -/
theorem support_of_identity_shape (c : Cache) (connections : Assertion → List Assertion)
    (ms fuel : ℕ) (a : Assertion) (dom : Finset ℕ) (hid : a.isIdentity = true) :
    support_of c connections ms fuel a dom = (-1, ∅) ∨
      ∃ U : Finset ℕ, support_of c connections ms fuel a dom = ((U.card : ℤ), U) ∧ U ⊆ dom := by
  cases fuel with
  | zero => exact Or.inl rfl
  | succ n =>
      rw [support_of]
      by_cases hnil : connections a = []
      · rw [if_pos hnil, if_pos hid]
        exact Or.inr ⟨dom, rfl, Finset.Subset.refl _⟩
      · rw [if_neg hnil]
        cases hF : rangeFilterLoop c ms (connections a) (rangeOf c a dom) with
        | none => exact Or.inl rfl
        | some r1 =>
            dsimp only
            cases hU : rangeUpdateLoop
                (fun conn d => support_of c connections ms n conn d) ms (connections a) r1 with
            | none => exact Or.inl rfl
            | some r2 =>
                dsimp only
                rw [if_pos hid]
                refine Or.inr ⟨r2, rfl, ?_⟩
                have h1 := rangeUpdateLoop_some_subset _ ms (connections a) hU
                have h2 := rangeFilterLoop_some_subset c ms (connections a) hF
                have h3 : rangeOf c a dom = dom := by rw [rangeOf, if_pos hid]
                rw [← h3]
                exact h1.trans h2

/-- The core refinement lemma behind the monotonicity claim: evaluating any
assertion after one fresh extension `x` has been appended to the connection
set of an endpoint `e` (the identity, or an assertion with an
`ObjectTypeVariable` right-hand side — the only pendant endpoints the
search extends) refines, in the sense of `SRel`, the evaluation of the
same assertion in the original body on any larger domain, provided the
cache's backward map only inverts forward edges (as the maps built from a
graph do). -/
theorem support_of_extend_SRel (c : Cache)
    (hcc : ∀ p r ent, ent ∈ (c.predicate_map p).backwards r →
      r ∈ (c.predicate_map p).forwards ent)
    (conn conn' : Assertion → List Assertion) (e x : Assertion)
    (hpend : e.isIdentity = true ∨ ∃ t, e.rhs = Rhs.ovar t)
    (hconn : ∀ a, a ≠ e → conn' a = conn a)
    (hce : conn' e = conn e ++ [x]) (ms : ℕ) :
    ∀ (fuel : ℕ) (a : Assertion) (dom' dom : Finset ℕ), dom' ⊆ dom →
      SRel ms dom' (support_of c conn' ms fuel a dom')
        (support_of c conn ms fuel a dom) := by
  intro fuel
  induction fuel with
  | zero =>
      intro a dom' dom _
      exact SRel_of_left_sentinel ms dom' _
  | succ n ih =>
      have internalCase :
          ∀ (aa : Assertion) (dom' dom : Finset ℕ), dom' ⊆ dom →
            ∀ ext : List Assertion, conn' aa = conn aa ++ ext → conn aa ≠ [] →
            SRel ms dom' (support_of c conn' ms (n + 1) aa dom')
              (support_of c conn ms (n + 1) aa dom) := by
        intro aa dom' dom hdom ext hca hnil
        have hnil' : conn' aa ≠ [] := by
          rw [hca]
          intro hctr
          exact hnil (List.append_eq_nil.mp hctr).1
        rw [support_of, support_of, if_neg hnil', if_neg hnil, hca]
        have hr0 := rangeOf_mono c aa hdom
        rcases rangeFilterLoop_optRel c ms ext (conn aa) hr0 with
          hFnone | ⟨r1', r1, hF', hF, hr1⟩
        · rw [hFnone]
          exact SRel_of_left_sentinel ms dom' _
        · rw [hF', hF]
          dsimp only
          have HU := rangeUpdateLoop_optRel ms
            (fun conn_ d => support_of c conn' ms n conn_ d)
            (fun conn_ d => support_of c conn ms n conn_ d) ext (conn aa)
            (fun conn_ _ d' d hd => ih conn_ d' d hd) hr1
          rcases HU with HUnone | ⟨r2', r2, HU', HU, hr2⟩
          · rw [HUnone]
            exact SRel_of_left_sentinel ms dom' _
          · rw [HU', HU]
            dsimp only
            by_cases hid : aa.isIdentity = true
            · rw [if_pos hid, if_pos hid]
              refine ⟨?_, ?_, ?_⟩
              · intro hcontra
                exfalso
                have := Int.natCast_nonneg r2.card
                omega
              · intro hlt
                have hc : r2'.card ≤ r2.card := Finset.card_le_card hr2
                omega
              · exact Finset.inter_subset_left.trans hr2
            · rw [if_neg hid, if_neg hid]
              refine ⟨?_, ?_, ?_⟩
              · intro hcontra
                exfalso
                have := domainOf_fst_nonneg c aa r2
                omega
              · intro hlt
                exact lt_of_le_of_lt (domainOf_fst_le c aa hr2) hlt
              · exact Finset.inter_subset_left.trans (domainOf_snd_subset c aa hr2)
      intro a dom' dom hdom
      by_cases hae : a = e
      · subst hae
        by_cases hnil : conn a = []
        · -- the endpoint was a pattern leaf and becomes an internal node
          have hnil' : conn' a ≠ [] := by
            rw [hce, hnil]
            simp
          rw [support_of, support_of, if_pos hnil, if_neg hnil', hce, hnil,
            List.nil_append]
          by_cases hid : a.isIdentity = true
          · rw [if_pos hid]
            have hR0 : rangeOf c a dom' = dom' := by rw [rangeOf, if_pos hid]
            rw [hR0]
            cases hF : rangeFilterLoop c ms [x] dom' with
            | none => exact SRel_of_left_sentinel ms dom' _
            | some r1' =>
                dsimp only
                cases hU : rangeUpdateLoop
                    (fun conn_ d => support_of c conn' ms n conn_ d) ms [x] r1' with
                | none => exact SRel_of_left_sentinel ms dom' _
                | some r2' =>
                    dsimp only
                    rw [if_pos hid]
                    have hr1' : r1' ⊆ dom' := rangeFilterLoop_some_subset c ms [x] hF
                    have hr2' : r2' ⊆ r1' := rangeUpdateLoop_some_subset _ ms [x] hU
                    refine ⟨?_, ?_, ?_⟩
                    · intro hcontra
                      exfalso
                      have := Int.natCast_nonneg dom.card
                      omega
                    · intro hlt
                      have hc : r2'.card ≤ dom.card :=
                        Finset.card_le_card ((hr2'.trans hr1').trans hdom)
                      omega
                    · exact Finset.inter_subset_left.trans ((hr2'.trans hr1').trans hdom)
          · obtain ⟨t, ht⟩ : ∃ t, a.rhs = Rhs.ovar t := by
              rcases hpend with hpd | hpd
              · exact absurd hpd hid
              · exact hpd
            have hidf : a.isIdentity = false := by simpa using hid
            rw [if_neg hid]
            cases hF : rangeFilterLoop c ms [x] (rangeOf c a dom') with
            | none => exact SRel_of_left_sentinel ms dom' _
            | some r1' =>
                dsimp only
                have hnotlt := rangeFilterLoop_cons_not_lt c ms hF
                have hkey : (ms : ℤ) ≤ (supportLeaf c a dom).1 := by
                  have h1 : ms ≤ (rangeOf c a dom').card := Nat.le_of_not_lt hnotlt
                  have h2 := card_rangeOf_le_supportLeaf c a hidf ht hdom
                  have h1' : (ms : ℤ) ≤ ((rangeOf c a dom').card : ℤ) := by
                    exact_mod_cast h1
                  exact h1'.trans h2
                cases hU : rangeUpdateLoop
                    (fun conn_ d => support_of c conn' ms n conn_ d) ms [x] r1' with
                | none => exact SRel_of_left_sentinel ms dom' _
                | some r2' =>
                    dsimp only
                    rw [if_neg hid]
                    have hr1' : r1' ⊆ rangeOf c a dom' :=
                      rangeFilterLoop_some_subset c ms [x] hF
                    have hr2' : r2' ⊆ r1' := rangeUpdateLoop_some_subset _ ms [x] hU
                    refine ⟨?_, ?_, ?_⟩
                    · intro hcontra
                      exfalso
                      have := supportLeaf_fst_nonneg c a dom
                      omega
                    · intro hlt
                      exfalso
                      omega
                    · intro y hy
                      obtain ⟨hy1, hy2⟩ := Finset.mem_inter.mp hy
                      simp only [domainOf] at hy1
                      rw [Finset.mem_biUnion] at hy1
                      obtain ⟨r, hrmem, hyb⟩ := hy1
                      have hfwd := hcc a.predicate r y hyb
                      have hrtype : c.object_type_map r = a.rhs.vtype :=
                        rangeOf_mem_vtype c a hidf (hr1' (hr2' hrmem))
                      rw [supportLeaf.eq_def, ht]
                      dsimp only
                      refine Finset.mem_filter.mpr ⟨hdom hy2, ?_⟩
                      have hrm : r ∈ matchingObjects c a.predicate t y :=
                        Finset.mem_filter.mpr ⟨hfwd, by rw [ht] at hrtype; exact hrtype⟩
                      exact Finset.card_ne_zero_of_mem hrm
        · exact internalCase a dom' dom hdom [x] hce hnil
      · have hca : conn' a = conn a := hconn a hae
        by_cases hnil : conn a = []
        · have hnil2 : conn' a = [] := by rw [hca, hnil]
          rw [support_of, support_of, if_pos hnil2, if_pos hnil]
          by_cases hid : a.isIdentity = true
          · rw [if_pos hid, if_pos hid]
            refine ⟨?_, ?_, ?_⟩
            · intro hcontra
              exfalso
              have := Int.natCast_nonneg dom.card
              omega
            · intro hlt
              have hc : dom'.card ≤ dom.card := Finset.card_le_card hdom
              omega
            · exact Finset.inter_subset_left.trans hdom
          · rw [if_neg hid, if_neg hid]
            refine ⟨?_, ?_, ?_⟩
            · intro hcontra
              exfalso
              have := supportLeaf_fst_nonneg c a dom
              omega
            · intro hlt
              exact lt_of_le_of_lt (supportLeaf_fst_le c a hdom) hlt
            · exact Finset.inter_subset_left.trans (supportLeaf_snd_subset c a hdom)
        · exact internalCase a dom' dom hdom [] (by rw [hca, List.append_nil]) hnil

/-- In a reachable clause body, assertions outside the key set have no
connection entry. -/
theorem ClauseBody.Reachable.conn_eq_nil {b : ClauseBody} (hb : b.Reachable) :
    ∀ a ∉ b.keys, b.connections a = [] := by
  induction hb with
  | base idA hid => intro a _; rfl
  | step b e0 x0 hb he hx ih =>
      intro a ha
      simp only [ClauseBody.extend, Finset.mem_insert, not_or] at ha
      obtain ⟨hax, hak⟩ := ha
      show (if a = x0 then [] else if a = e0 then b.connections e0 ++ [x0]
        else b.connections a) = []
      rw [if_neg hax, if_neg (fun h : a = e0 => hak (by rw [h]; exact he))]
      exact ih a hak

/-- The identity of a reachable clause body is an `IdentityAssertion`. -/
theorem ClauseBody.Reachable.identity_isIdentity {b : ClauseBody} (hb : b.Reachable) :
    b.identity.isIdentity = true := by
  induction hb with
  | base idA hid => exact hid
  | step b e0 x0 hb he hx ih => exact ih

/-- C1.  Monotonicity of support under extension: for every reachable
clause body `b`, every one-assertion extension of `b` built via
`ClauseBody.extend` from a pendant endpoint (an endpoint in the body whose
right-hand side is an `ObjectTypeVariable`) with a fresh assertion, every
cache whose backward map inverts its forward map (as every Cache built from
a graph does), every candidate domain, every `min_support` and every
recursion budget, the support returned by `support_of` for the extended
body is at most the support returned for `b`, and the updated domain
returned for the extended body is a subset of the one returned for `b`. -/
theorem support_of_monotone_under_extend (c : Cache)
    (hcc : ∀ p r ent, ent ∈ (c.predicate_map p).backwards r →
      r ∈ (c.predicate_map p).forwards ent)
    (b : ClauseBody) (hb : b.Reachable) (e x : Assertion)
    (he : e ∈ b.keys) (hx : x ∉ b.keys) (t : ℕ) (hpend : e.rhs = Rhs.ovar t)
    (dom : Finset ℕ) (min_support fuel : ℕ) :
    (support_of c (b.extend e x).connections min_support fuel
        (b.extend e x).identity dom).1
      ≤ (support_of c b.connections min_support fuel b.identity dom).1 ∧
    (support_of c (b.extend e x).connections min_support fuel
        (b.extend e x).identity dom).2
      ⊆ (support_of c b.connections min_support fuel b.identity dom).2 := by
  have hxe : x ≠ e := fun hctr => hx (hctr ▸ he)
  have hcx : b.connections x = [] := hb.conn_eq_nil x hx
  have hce : (b.extend e x).connections e = b.connections e ++ [x] := by
    show (if e = x then [] else if e = e then b.connections e ++ [x]
      else b.connections e) = _
    rw [if_neg (Ne.symm hxe), if_pos rfl]
  have hconn : ∀ a, a ≠ e → (b.extend e x).connections a = b.connections a := by
    intro a ha
    show (if a = x then [] else if a = e then b.connections e ++ [x]
      else b.connections a) = _
    by_cases hax : a = x
    · rw [if_pos hax, hax, hcx]
    · rw [if_neg hax, if_neg ha]
  have hid : (b.extend e x).identity = b.identity := rfl
  have hidv : b.identity.isIdentity = true := hb.identity_isIdentity
  have hS := support_of_extend_SRel c hcc b.connections (b.extend e x).connections e x
    (Or.inr ⟨t, hpend⟩) hconn hce min_support fuel b.identity dom dom
    (Finset.Subset.refl dom)
  rw [hid]
  rcases support_of_identity_shape c (b.extend e x).connections min_support fuel
      b.identity dom hidv with hs' | ⟨U', hU', hUd⟩
  · rw [hs']
    exact ⟨support_of_fst_ge c b.connections min_support fuel b.identity dom,
      Finset.empty_subset _⟩
  · rcases support_of_identity_shape c b.connections min_support fuel
        b.identity dom hidv with hs | ⟨U, hU, _⟩
    · exfalso
      have h1 := hS.1 (by rw [hs])
      rw [hU'] at h1
      have h2 : (U'.card : ℤ) = -1 := congrArg Prod.fst h1
      have := Int.natCast_nonneg U'.card
      omega
    · have hsub : U' ⊆ U := by
        have h3 := hS.2.2
        rw [hU', hU] at h3
        intro y hy
        exact h3 (Finset.mem_inter.mpr ⟨hy, hUd hy⟩)
      rw [hU', hU]
      refine ⟨?_, hsub⟩
      show (U'.card : ℤ) ≤ (U.card : ℤ)
      exact_mod_cast Finset.card_le_card hsub

/-- C1 witness.  All hypotheses of the monotonicity theorem hold at a
concrete instance: the empty cache (vacuously backward-consistent), the
fresh one-assertion body around `idAssertion` (reachable, with its identity
a pendant `ObjectTypeVariable` endpoint), and the fresh extension
`boundLeaf`; the theorem's conclusion follows by applying it there. -/
theorem support_of_monotone_under_extend_witness :
    (∀ p r ent, ent ∈ (emptyCache.predicate_map p).backwards r →
      r ∈ (emptyCache.predicate_map p).forwards ent) ∧
    (ClauseBody.fresh idAssertion).Reachable ∧
    idAssertion ∈ (ClauseBody.fresh idAssertion).keys ∧
    boundLeaf ∉ (ClauseBody.fresh idAssertion).keys ∧
    idAssertion.rhs = Rhs.ovar 9 ∧
    ((support_of emptyCache
        ((ClauseBody.fresh idAssertion).extend idAssertion boundLeaf).connections 1 3
        ((ClauseBody.fresh idAssertion).extend idAssertion boundLeaf).identity {1, 2}).1
      ≤ (support_of emptyCache (ClauseBody.fresh idAssertion).connections 1 3
        (ClauseBody.fresh idAssertion).identity {1, 2}).1 ∧
    (support_of emptyCache
        ((ClauseBody.fresh idAssertion).extend idAssertion boundLeaf).connections 1 3
        ((ClauseBody.fresh idAssertion).extend idAssertion boundLeaf).identity {1, 2}).2
      ⊆ (support_of emptyCache (ClauseBody.fresh idAssertion).connections 1 3
        (ClauseBody.fresh idAssertion).identity {1, 2}).2) :=
  ⟨fun p r ent h => absurd h (by simp [emptyCache]),
   ClauseBody.Reachable.base idAssertion rfl,
   by decide, by decide, rfl,
   support_of_monotone_under_extend emptyCache
     (fun p r ent h => absurd h (by simp [emptyCache]))
     (ClauseBody.fresh idAssertion) (ClauseBody.Reachable.base idAssertion rfl)
     idAssertion boundLeaf (by decide) (by decide) 9 rfl {1, 2} 1 3⟩

/-- C4 counterexample.  A pattern-leaf root assertion whose direct support
(here 1) falls below `min_support` (here 5) does not produce the sentinel:
`support_of` returns the direct evaluation `(1, {1})`, not `(-1, ∅)` — the
leaf branch performs no threshold check. -/
theorem support_of_leaf_below_threshold_not_sentinel :
    support_of leafCache leafBody.connections 5 2 boundLeaf {1} = (1, {1}) ∧
      (1 : ℤ) < 5 ∧
      support_of leafCache leafBody.connections 5 2 boundLeaf {1} ≠ (-1, ∅) := by
  decide

/-- C4 amended.  Whenever `support_of` signals a threshold miss it returns
exactly the pair `(-1, ∅)`, and every non-sentinel return carries a
nonnegative support; the threshold checks happen only while processing an
assertion with outgoing connections — a pattern-leaf root is evaluated
directly and its support and image are returned unchanged even when the
support is below `min_support` (callers compare against the threshold
themselves). -/
theorem support_of_sentinel_exact_and_leaf_direct (c : Cache)
    (connections : Assertion → List Assertion) (min_support fuel : ℕ)
    (a : Assertion) (dom : Finset ℕ) :
    (support_of c connections min_support fuel a dom = (-1, ∅) ∨
      0 ≤ (support_of c connections min_support fuel a dom).1) ∧
    (connections a = [] → a.isIdentity = false →
      support_of c connections min_support (fuel + 1) a dom = supportLeaf c a dom) := by
  constructor
  · cases fuel with
    | zero => exact Or.inl rfl
    | succ n =>
        rw [support_of]
        split
        · split
          · exact Or.inr (Int.natCast_nonneg _)
          · exact Or.inr (supportLeaf_fst_nonneg c a dom)
        · split
          · exact Or.inl rfl
          · split
            · exact Or.inl rfl
            · split
              · exact Or.inr (Int.natCast_nonneg _)
              · exact Or.inr (domainOf_fst_nonneg c a _)
  · intro hnil hid
    rw [support_of, if_pos hnil, if_neg (by simp [hid])]

/-- C4 amended witness.  The amended statement applied at the concrete
leaf pattern: the root `boundLeaf` has no outgoing connections, is not the
identity, and its evaluation is exactly the direct leaf evaluation. -/
theorem support_of_sentinel_exact_and_leaf_direct_witness :
    leafBody.connections boundLeaf = [] ∧ boundLeaf.isIdentity = false ∧
      support_of leafCache leafBody.connections 5 1 boundLeaf {1} =
        supportLeaf leafCache boundLeaf {1} :=
  ⟨by decide, rfl,
    (support_of_sentinel_exact_and_leaf_direct leafCache leafBody.connections
      5 0 boundLeaf {1}).2 (by decide) rfl⟩

/-- C5 counterexample.  On the predicate map built from the single triple
`(1, 7, 2)`, looking up the never-observed entity 3 through
`predicate_map[7]['forwards'][3]` finds no key — a `KeyError` (`none`),
not an empty-set default — and the bound-resource leaf loop of
`support_of` run over a domain containing entity 3 aborts fatally, while
the observed entity 1 resolves normally. -/
theorem predicate_map_missing_key_fatal :
    lookup_forwards (generate_predicate_map [(1, 7, 2)] {7}) 7 3 = none ∧
      supportLeafChecked (generate_predicate_map [(1, 7, 2)] {7}) 7 2 [3] (0, ∅) = none ∧
      lookup_forwards (generate_predicate_map [(1, 7, 2)] {7}) 7 1 = some {2} := by
  decide

/-- C5 amended.  A Cache lookup for an entity never observed as a subject
of predicate `p` raises `KeyError` (modeled by `none`) rather than
resolving to an empty default: `generate_predicate_map` stores entries only
for observed keys, so the direct subscript performed by
`support_of`/`confidence_of` on such an entity is a fatal error. -/
theorem generate_predicate_map_never_observed_none
    (g : List (ℕ × ℕ × ℕ)) (predicates : Finset ℕ) (p ent : ℕ)
    (hobs : ∀ tr ∈ g, ¬(tr.2.1 = p ∧ tr.1 = ent)) :
    lookup_forwards (generate_predicate_map g predicates) p ent = none := by
  suffices h : ∀ (l : List (ℕ × ℕ × ℕ)) (pm0 : ℕ → Option PredDicts),
      (∀ tr ∈ l, ¬(tr.2.1 = p ∧ tr.1 = ent)) →
      lookup_forwards pm0 p ent = none →
      lookup_forwards (l.foldl (predicateMapStep predicates) pm0) p ent = none by
    exact h g (fun _ => none) hobs rfl
  intro l
  induction l with
  | nil => intro pm0 _ h0; exact h0
  | cons tr rest ih =>
      intro pm0 hobs2 h0
      rw [List.foldl_cons]
      refine ih _ (fun tr2 hm => hobs2 tr2 (List.mem_cons_of_mem tr hm)) ?_
      obtain ⟨lhs, pr, rhs⟩ := tr
      have hno := hobs2 (lhs, pr, rhs) (List.mem_cons_self _ _)
      simp only [lookup_forwards] at h0 ⊢
      simp only [predicateMapStep]
      by_cases hpin : pr ∉ predicates
      · rw [if_pos hpin]
        exact h0
      · rw [if_neg hpin]
        by_cases hpp : pr = p
        · subst hpp
          rw [Function.update_same, Option.some_bind]
          dsimp only
          have hlne : ent ≠ lhs := fun hl => hno ⟨rfl, hl.symm⟩
          rw [Function.update_noteq hlne]
          cases hpm : pm0 pr with
          | none => rfl
          | some en =>
              rw [hpm, Option.some_bind] at h0
              simp only [hpm, Option.getD_some]
              exact h0
        · rw [Function.update_noteq (fun h : p = pr => hpp h.symm)]
          exact h0

/-- C5 amended witness.  The amended statement applied at the concrete
graph `[(1, 7, 2)]`: entity 3 is never observed as a subject of predicate
7, and its lookup is `none`. -/
theorem generate_predicate_map_never_observed_none_witness :
    (∀ tr ∈ [((1 : ℕ), (7 : ℕ), (2 : ℕ))], ¬(tr.2.1 = 7 ∧ tr.1 = 3)) ∧
      lookup_forwards (generate_predicate_map [(1, 7, 2)] {7}) 7 3 = none :=
  ⟨by decide, generate_predicate_map_never_observed_none [(1, 7, 2)] {7} 7 3 (by decide)⟩

/-- A list relation holds pairwise when it holds between any two members. -/
theorem pairwise_of_mem {α : Type} {R : α → α → Prop} :
    ∀ {l : List α}, (∀ a ∈ l, ∀ b ∈ l, R a b) → l.Pairwise R := by
  intro l
  induction l with
  | nil => intro _; exact List.Pairwise.nil
  | cons a rest ih =>
      intro h
      exact List.Pairwise.cons
        (fun b hb => h a (List.mem_cons_self a rest) b (List.mem_cons_of_mem a hb))
        (ih (fun u hu v hv =>
          h u (List.mem_cons_of_mem a hu) v (List.mem_cons_of_mem a hv)))

/-- The image of a list member under `f` is a sublist of the flatMap. -/
theorem sublist_flatMap_of_mem {α β : Type} (f : α → List β) :
    ∀ {l : List α} {x : α}, x ∈ l → (f x).Sublist (l.flatMap f) := by
  intro l
  induction l with
  | nil => intro x hx; cases hx
  | cons a rest ih =>
      intro x hx
      rw [List.flatMap_cons]
      rcases List.mem_cons.mp hx with h | h
      · rw [h]
        exact List.sublist_append_left _ _
      · exact (ih h).trans (List.sublist_append_right _ _)

/-- Pairwise over a flatMap from pairwise-between-blocks and
pairwise-within-blocks. -/
theorem pairwise_flatMap_of {α β : Type} {R : β → β → Prop} (f : α → List β) :
    ∀ {l : List α}, List.Pairwise (fun x y => ∀ a ∈ f x, ∀ b ∈ f y, R a b) l →
      (∀ x ∈ l, (f x).Pairwise R) → (l.flatMap f).Pairwise R := by
  intro l
  induction l with
  | nil => intro _ _; exact List.Pairwise.nil
  | cons a rest ih =>
      intro hp hin
      rw [List.flatMap_cons, List.pairwise_append]
      obtain ⟨ha, hrest⟩ := List.pairwise_cons.mp hp
      refine ⟨hin a (List.mem_cons_self a rest),
        ih hrest (fun x hx => hin x (List.mem_cons_of_mem a hx)), ?_⟩
      intro b hb b2 hb2
      obtain ⟨y, hy, hby⟩ := List.mem_flatMap.mp hb2
      exact ha y hy b hb b2 hby

/-- The four possible events of a per-type block. -/
theorem mem_typeBlock {pf : Bool} {dstart dstop depth t : ℕ} {ev : GenEvent}
    (h : ev ∈ typeBlock pf dstart dstop depth t) :
    ev = GenEvent.expand t depth ∨ ev = GenEvent.pruneEv t depth ∨
      ev = GenEvent.clearEv t depth ∨ ev = GenEvent.attach t (depth + 1) := by
  simp only [typeBlock] at h
  split_ifs at h <;>
    simp only [List.mem_cons, List.mem_append, List.mem_singleton,
      List.not_mem_nil, or_false, false_or] at h <;> tauto

/-- Every phased event of the depth-`depth` per-type block has phase
`depth` (the attach event targets depth `depth + 1` but is issued in phase
`depth`). -/
theorem typeBlock_phase {pf : Bool} {dstart dstop depth t : ℕ} {ev : GenEvent}
    (hev : ev ∈ typeBlock pf dstart dstop depth t) :
    ∀ p, ev.phase = some p → p = depth := by
  intro p hp
  rcases mem_typeBlock hev with rfl | rfl | rfl | rfl <;>
    simp [GenEvent.phase] at hp <;> omega

/-- C6 counterexample.  With two types and one depth, the schedule of
`generate` attaches type 0's depth-1 derivatives (index 1) before type 1's
depth-0 clauses are expanded (index 2): the claimed global depth barrier
fails, because `update_tree(ctype, derivatives, depth+1)` runs inside the
per-type loop. -/
theorem generate_not_global_depth_barrier :
    ¬ DepthBarrier (generateSchedule [0, 1] 0 1 false []) := by
  intro h
  have h12 := h 1 2 0 1 0 (by decide) (by decide)
  omega

/-- C6 amended.  The depth barrier holds per type and per phase: at every
depth `d`, type `t`'s depth-`d` expansion precedes the attachment of its
own depth-`d+1` derivatives, and every attachment of depth-`d+1` clauses
happens in phase `d`, i.e. after every expansion of every type at depths
below `d`; but one type's depth-`d+1` clauses are attached before later
types expand their depth-`d` clauses. -/
theorem generate_schedule_per_type_barrier
    (types : List ℕ) (dstart dstop : ℕ) (pruneFlag : Bool) (modeSkipTypes : List ℕ)
    (t : ℕ) (ht : t ∈ types) (d : ℕ) (hd : d < dstop) :
    [GenEvent.expand t d, GenEvent.attach t (d + 1)].Sublist
        (generateSchedule types dstart dstop pruneFlag modeSkipTypes) ∧
      (generateSchedule types dstart dstop pruneFlag modeSkipTypes).Pairwise PhaseLe := by
  constructor
  · have h1 : [GenEvent.expand t d, GenEvent.attach t (d + 1)].Sublist
        (typeBlock pruneFlag dstart dstop d t) := by
      refine List.Sublist.cons₂ _ ?_
      exact List.sublist_append_right _ _
    have h2 := sublist_flatMap_of_mem (typeBlock pruneFlag dstart dstop d) ht
    have h3 := sublist_flatMap_of_mem
      (fun depth => types.flatMap (typeBlock pruneFlag dstart dstop depth))
      (List.mem_range.mpr hd)
    refine ((h1.trans (h2.trans h3)).trans ?_)
    exact (List.sublist_append_left _ _).trans (List.sublist_append_left _ _)
  · refine List.pairwise_append.mpr ⟨List.pairwise_append.mpr ⟨?_, ?_, ?_⟩, ?_, ?_⟩
    · -- the main double loop
      refine pairwise_flatMap_of _ ?_ ?_
      · refine (List.pairwise_lt_range dstop).imp ?_
        intro d1 d2 hlt a ha b hb pa pb hpa hpb
        obtain ⟨t1, _, ha2⟩ := List.mem_flatMap.mp ha
        obtain ⟨t2, _, hb2⟩ := List.mem_flatMap.mp hb
        have e1 := typeBlock_phase ha2 pa hpa
        have e2 := typeBlock_phase hb2 pb hpb
        omega
      · intro depth _
        refine pairwise_flatMap_of _ ?_ ?_
        · refine pairwise_of_mem ?_
          intro t1 _ t2 _ a ha b hb pa pb hpa hpb
          have e1 := typeBlock_phase ha pa hpa
          have e2 := typeBlock_phase hb pb hpb
          omega
        · intro t2 _
          refine pairwise_of_mem ?_
          intro a ha b hb pa pb hpa hpb
          have e1 := typeBlock_phase ha pa hpa
          have e2 := typeBlock_phase hb pb hpb
          omega
    · -- the mode-skip prunes carry no phase
      refine pairwise_of_mem ?_
      intro a ha b _ pa pb hpa _
      obtain ⟨t1, _, rfl⟩ := List.mem_map.mp ha
      simp [GenEvent.phase] at hpa
    · intro a _ b hb pa pb _ hpb
      obtain ⟨t1, _, rfl⟩ := List.mem_map.mp hb
      simp [GenEvent.phase] at hpb
    · -- the final depth-0 clears carry no phase
      refine pairwise_of_mem ?_
      intro a ha b _ pa pb hpa _
      split at ha
      · obtain ⟨t1, _, rfl⟩ := List.mem_map.mp ha
        simp [GenEvent.phase] at hpa
      · exact absurd ha (List.not_mem_nil a)
    · intro a _ b hb pa pb _ hpb
      split at hb
      · obtain ⟨t1, _, rfl⟩ := List.mem_map.mp hb
        simp [GenEvent.phase] at hpb
      · exact absurd hb (List.not_mem_nil b)

/-- C6 amended witness.  The amended barrier applied at the concrete
schedule with two types and a single depth. -/
theorem generate_schedule_per_type_barrier_witness :
    ((0 : ℕ) ∈ [0, 1] ∧ (0 : ℕ) < 1) ∧
      [GenEvent.expand 0 0, GenEvent.attach 0 1].Sublist
        (generateSchedule [0, 1] 0 1 false []) ∧
      (generateSchedule [0, 1] 0 1 false []).Pairwise PhaseLe :=
  ⟨⟨by decide, by decide⟩,
    generate_schedule_per_type_barrier [0, 1] 0 1 false [] 0 (by decide) 0 (by decide)⟩

/-- Every reachable clause body satisfies the depth-bookkeeping invariant
package. -/
theorem ClauseBody.Reachable.wfinv {b : ClauseBody} (hb : b.Reachable) : b.WFinv := by
  induction hb with
  | base idA hid =>
      refine ⟨?_, ?_, ?_⟩
      · intro a _ ext hext
        exact absurd hext (List.not_mem_nil ext)
      · intro a n
        show a ∈ (if n = 0 then {idA} else ∅) ↔
          a ∈ ({idA} : Finset Assertion) ∧ (0 : ℕ) = n
        split_ifs with hn
        · subst hn
          simp
        · simp only [Finset.not_mem_empty, false_iff, not_and]
          intro _
          exact fun h0 => hn h0.symm
      · intro a _
        rfl
  | step b e0 x0 hb he hx ih =>
      obtain ⟨ih1, ih2, ih3⟩ := ih
      have hxrev : ∀ a ∈ b.keys, a ≠ x0 := fun a ha h => hx (h ▸ ha)
      refine ⟨?_, ?_, ?_⟩
      · intro a ha ext hext
        simp only [ClauseBody.extend, Finset.mem_insert] at ha hext ⊢
        rcases ha with rfl | ha
        · rw [if_pos rfl] at hext
          exact absurd hext (List.not_mem_nil ext)
        · have hax : a ≠ x0 := hxrev a ha
          rw [if_neg hax] at hext
          by_cases hae : a = e0
          · subst hae
            rw [if_pos rfl] at hext
            rcases List.mem_append.mp hext with hin | hin
            · obtain ⟨hk, hr⟩ := ih1 a he ext hin
              have hexo : ext ≠ x0 := hxrev ext hk
              refine ⟨Or.inr hk, ?_⟩
              rw [Function.update_noteq hexo, Function.update_noteq hax]
              exact hr
            · rw [List.mem_singleton] at hin
              subst hin
              refine ⟨Or.inl rfl, ?_⟩
              rw [Function.update_same, Function.update_noteq hax]
          · rw [if_neg hae] at hext
            obtain ⟨hk, hr⟩ := ih1 a ha ext hext
            have hexo : ext ≠ x0 := hxrev ext hk
            refine ⟨Or.inr hk, ?_⟩
            rw [Function.update_noteq hexo, Function.update_noteq hax]
            exact hr
      · intro a n
        simp only [ClauseBody.extend, Finset.mem_insert]
        by_cases hax : a = x0
        · subst hax
          rw [Function.update_same]
          constructor
          · intro h
            split_ifs at h with hn
            · exact ⟨Or.inl rfl, hn.symm⟩
            · exact absurd ((ih2 a n).mp h).1 hx
          · rintro ⟨_, hn⟩
            rw [if_pos hn.symm]
            exact Finset.mem_insert_self _ _
        · rw [Function.update_noteq hax]
          constructor
          · intro h
            split_ifs at h with hn
            · rw [Finset.mem_insert] at h
              rcases h with h | h
              · exact absurd h hax
              · obtain ⟨hk, hr⟩ := (ih2 a n).mp h
                exact ⟨Or.inr hk, hr⟩
            · obtain ⟨hk, hr⟩ := (ih2 a n).mp h
              exact ⟨Or.inr hk, hr⟩
          · rintro ⟨hk, hr⟩
            rcases hk with hk | hk
            · exact absurd hk hax
            · have hmem := (ih2 a n).mpr ⟨hk, hr⟩
              split_ifs with hn
              · exact Finset.mem_insert_of_mem hmem
              · exact hmem
      · intro a ha
        simp only [ClauseBody.extend, Finset.mem_insert, not_or] at ha ⊢
        obtain ⟨hax, hak⟩ := ha
        rw [if_neg hax, if_neg (fun h : a = e0 => hak (by rw [h]; exact he))]
        exact ih3 a hak

/-- C7.  Depth consistency of clause bodies: in every clause body reachable
by a sequence of `extend` calls from a fresh body, every assertion recorded
as an extension of an endpoint sits exactly one deeper than that endpoint
in the reverse distance map, and the depth partition `distances` agrees
with the reverse map on exactly the assertions of the body. -/
theorem clauseBody_depth_consistency (b : ClauseBody) (hb : b.Reachable) :
    (∀ endpoint ∈ b.keys, ∀ a ∈ b.connections endpoint,
        b.distances_reverse a = b.distances_reverse endpoint + 1) ∧
      (∀ a n, a ∈ b.distances n ↔ a ∈ b.keys ∧ b.distances_reverse a = n) := by
  obtain ⟨h1, h2, _⟩ := hb.wfinv
  exact ⟨fun ep hep a ha => (h1 ep hep a ha).2, h2⟩

/-- C7 witness.  The depth-consistency theorem applied to the concrete
two-assertion body `identity -> boundLeaf`. -/
theorem clauseBody_depth_consistency_witness :
    leafBody.Reachable ∧
      ((∀ endpoint ∈ leafBody.keys, ∀ a ∈ leafBody.connections endpoint,
          leafBody.distances_reverse a = leafBody.distances_reverse endpoint + 1) ∧
        (∀ a n, a ∈ leafBody.distances n ↔
          a ∈ leafBody.keys ∧ leafBody.distances_reverse a = n)) :=
  have hr : leafBody.Reachable :=
    ClauseBody.Reachable.step _ _ _ (ClauseBody.Reachable.base idAssertion rfl)
      (by decide) (by decide)
  ⟨hr, clauseBody_depth_consistency leafBody hr⟩

/-- One triple insertion of `generate_predicate_map` preserves
inverse-consistency of the touched entry. -/
theorem PredDicts.Inverts.step {en : PredDicts} (h : en.Inverts) (lhs rhs : ℕ) :
    PredDicts.Inverts
      { forwards := Function.update en.forwards lhs
          (some (insert rhs ((en.forwards lhs).getD ∅)))
        backwards := Function.update en.backwards rhs
          (some (insert lhs ((en.backwards rhs).getD ∅))) } := by
  intro ent r s hbw hent
  dsimp only at hbw ⊢
  by_cases hrr : r = rhs
  · subst hrr
    rw [Function.update_same] at hbw
    cases hbw
    rw [Finset.mem_insert] at hent
    by_cases hel : ent = lhs
    · subst hel
      exact ⟨_, Function.update_same _ _ _, Finset.mem_insert_self _ _⟩
    · rcases hent with h1 | hent
      · exact absurd h1 hel
      · cases hob : en.backwards r with
        | none =>
            rw [hob] at hent
            simp at hent
        | some sOld =>
            rw [hob, Option.getD_some] at hent
            obtain ⟨s', hf, hrs⟩ := h ent r sOld hob hent
            rw [Function.update_noteq hel]
            exact ⟨s', hf, hrs⟩
  · rw [Function.update_noteq hrr] at hbw
    obtain ⟨s', hf, hrs⟩ := h ent r s hbw hent
    by_cases hel : ent = lhs
    · subst hel
      rw [Function.update_same]
      refine ⟨_, rfl, ?_⟩
      rw [hf, Option.getD_some]
      exact Finset.mem_insert_of_mem hrs
    · rw [Function.update_noteq hel]
      exact ⟨s', hf, hrs⟩

/-- Every per-predicate entry of the dicts built by
`generate_predicate_map` is inverse-consistent: an entity recorded in a
backwards set has the corresponding resource recorded in its forwards set.
This is exactly the property of a Cache that the support-monotonicity
theorem assumes. -/
theorem generate_predicate_map_consistent (g : List (ℕ × ℕ × ℕ)) (predicates : Finset ℕ) :
    ∀ (p : ℕ) (entry : PredDicts),
      generate_predicate_map g predicates p = some entry → entry.Inverts := by
  suffices h : ∀ (l : List (ℕ × ℕ × ℕ)) (pm0 : ℕ → Option PredDicts),
      (∀ p entry, pm0 p = some entry → PredDicts.Inverts entry) →
      ∀ p entry, (l.foldl (predicateMapStep predicates) pm0) p = some entry →
        PredDicts.Inverts entry by
    exact h g (fun _ => none) (fun p entry hpm => by cases hpm)
  intro l
  induction l with
  | nil => intro pm0 h0; exact h0
  | cons tr rest ih =>
      intro pm0 h0
      rw [List.foldl_cons]
      refine ih _ ?_
      obtain ⟨lhs, pr, rhs⟩ := tr
      intro p entry hpm
      simp only [predicateMapStep] at hpm
      by_cases hpin : pr ∉ predicates
      · rw [if_pos hpin] at hpm
        exact h0 p entry hpm
      · rw [if_neg hpin] at hpm
        by_cases hpp : pr = p
        · subst hpp
          rw [Function.update_same] at hpm
          cases hpm
          refine PredDicts.Inverts.step ?_ lhs rhs
          cases hp0 : pm0 pr with
          | none =>
              intro ent r s hbw _
              simp at hbw
          | some en =>
              simp only [Option.getD_some]
              exact h0 pr en hp0
        · rw [Function.update_noteq (fun h2 : p = pr => hpp h2.symm)] at hpm
          exact h0 p entry hpm

/-- The recursive-update loop only depends on the recursive evaluation's
values on the connections it processes. -/
theorem rangeUpdateLoop_congr (recur1 recur2 : Assertion → Finset ℕ → ℤ × Finset ℕ)
    (ms : ℕ) : ∀ (cs : List Assertion),
      (∀ conn ∈ cs, ∀ d, recur1 conn d = recur2 conn d) →
      ∀ (range : Finset ℕ),
        rangeUpdateLoop recur1 ms cs range = rangeUpdateLoop recur2 ms cs range := by
  intro cs
  induction cs with
  | nil => intro _ range; rfl
  | cons conn rest ih =>
      intro h range
      rw [rangeUpdateLoop, rangeUpdateLoop, h conn (List.mem_cons_self _ _) range]
      split_ifs
      · rfl
      · rfl
      · exact ih (fun c2 hm d => h c2 (List.mem_cons_of_mem conn hm) d) _

/-- In a reachable body every recorded depth is below the number of
assertions. -/
theorem ClauseBody.Reachable.rev_lt_card {b : ClauseBody} (hb : b.Reachable) :
    ∀ a ∈ b.keys, b.distances_reverse a < b.keys.card := by
  induction hb with
  | base idA _ =>
      intro a ha
      rw [show (ClauseBody.fresh idA).keys = {idA} from rfl, Finset.mem_singleton] at ha
      subst ha
      simp [ClauseBody.fresh]
  | step b e0 x0 hb he hx ih =>
      intro a ha
      simp only [ClauseBody.extend, Finset.mem_insert] at ha ⊢
      rw [Finset.card_insert_of_not_mem hx]
      rcases ha with rfl | ha
      · rw [Function.update_same]
        exact Nat.succ_lt_succ (ih e0 he)
      · rw [Function.update_noteq (fun h : a = x0 => hx (by rw [← h]; exact ha))]
        exact Nat.lt_succ_of_lt (ih a ha)

/-- The identity of a reachable body is among its keys. -/
theorem ClauseBody.Reachable.identity_mem {b : ClauseBody} (hb : b.Reachable) :
    b.identity ∈ b.keys := by
  induction hb with
  | base idA _ => exact Finset.mem_singleton_self idA
  | step b e0 x0 hb he hx ih => exact Finset.mem_insert_of_mem ih

/-- The identity of a reachable body sits at depth 0. -/
theorem ClauseBody.Reachable.rev_identity {b : ClauseBody} (hb : b.Reachable) :
    b.distances_reverse b.identity = 0 := by
  induction hb with
  | base idA _ => rfl
  | step b e0 x0 hb he hx ih =>
      show Function.update b.distances_reverse x0 _ b.identity = 0
      rw [Function.update_noteq
        (fun h : b.identity = x0 => hx (by rw [← h]; exact hb.identity_mem))]
      exact ih

/-- Fuel stability: on a reachable body, the evaluation of any assertion of
the body is unchanged once the recursion budget reaches the number of
assertions minus the assertion's depth — the budget only needs to cover the
remaining height of the pattern, so every sufficiently large budget
computes the same value (the value the Python recursion computes). -/
theorem support_of_fuel_stable (c : Cache) {b : ClauseBody} (hb : b.Reachable) (ms : ℕ) :
    ∀ (fuel : ℕ) (a : Assertion), a ∈ b.keys →
      b.keys.card - b.distances_reverse a ≤ fuel → ∀ (dom : Finset ℕ),
      support_of c b.connections ms fuel a dom =
        support_of c b.connections ms (b.keys.card - b.distances_reverse a) a dom := by
  obtain ⟨hconn, _, _⟩ := hb.wfinv
  have hrev := hb.rev_lt_card
  intro fuel
  induction fuel with
  | zero =>
      intro a ha hle
      exfalso
      have := hrev a ha
      omega
  | succ n ih =>
      intro a ha hle dom
      have hm1 : 1 ≤ b.keys.card - b.distances_reverse a := by
        have := hrev a ha
        omega
      obtain ⟨m', hm'⟩ : ∃ m', b.keys.card - b.distances_reverse a = m' + 1 :=
        ⟨b.keys.card - b.distances_reverse a - 1, by omega⟩
      rw [hm', support_of, support_of]
      by_cases hnil : b.connections a = []
      · rw [if_pos hnil, if_pos hnil]
      · rw [if_neg hnil, if_neg hnil]
        have hcongr : ∀ range1 : Finset ℕ,
            rangeUpdateLoop (fun conn d => support_of c b.connections ms n conn d)
                ms (b.connections a) range1 =
              rangeUpdateLoop (fun conn d => support_of c b.connections ms m' conn d)
                ms (b.connections a) range1 := by
          intro range1
          refine rangeUpdateLoop_congr _ _ ms (b.connections a) ?_ range1
          intro conn hm2 d
          obtain ⟨hck, hcr⟩ := hconn a ha conn hm2
          have hc1 : b.keys.card - b.distances_reverse conn ≤ n := by
            rw [hcr]
            omega
          rw [ih conn hck hc1 d]
          have hceq : b.keys.card - b.distances_reverse conn = m' := by
            rw [hcr]
            omega
          rw [hceq]
        cases hF : rangeFilterLoop c ms (b.connections a) (rangeOf c a dom) with
        | none => rfl
        | some r1 =>
            dsimp only
            rw [hcongr r1]

/-- Any recursion budget of at least the number of assertions of a
reachable body evaluates its identity root to the same result as the
canonical budget `b.keys.card`; together with the previous theorem this
shows the fuel parameter is inessential for every body the search
builds. -/
theorem support_of_keys_card_stable (c : Cache) {b : ClauseBody} (hb : b.Reachable)
    (ms fuel : ℕ) (hfuel : b.keys.card ≤ fuel) (dom : Finset ℕ) :
    support_of c b.connections ms fuel b.identity dom =
      support_of c b.connections ms b.keys.card b.identity dom := by
  have h0 := hb.rev_identity
  have hst := support_of_fuel_stable c hb ms fuel b.identity hb.identity_mem
    (by rw [h0, Nat.sub_zero]; exact hfuel) dom
  rw [hst, h0, Nat.sub_zero]
